import Mathlib

/-!
Verification of the resume-analyzer core: a shallow embedding of
`src/utils/resume_parser.py` and `src/utils/analyzer.py`.

Strings are modelled as `List Char` (Python `str`); machine text scanning
(`re.findall`, `str.find`, `str.rfind`, `str.split`) is embedded as
executable functions over character lists with ASCII semantics.
-/

set_option maxRecDepth 40000

namespace ResumeAnalyzer

/-! ## Character classes (ASCII semantics of the Python regexes) -/

/-- `\w` of Python `re` restricted to ASCII: letters, digits, underscore. -/
def isWordChar (c : Char) : Bool := c.isAlphanum || c = '_'

/-- Word-ness of an optional character; the edges of the text count as
non-word (this is how `\b` treats the start/end of the string). -/
def isWordOpt : Option Char → Bool
  | none => false
  | some c => isWordChar c

/-- `\b`: a word boundary holds between two (optional) characters iff
exactly one side is a word character. -/
def boundary (a b : Option Char) : Bool := isWordOpt a != isWordOpt b

/-! ## Generic leftmost scan

`re.findall` tries to match at position 0, 1, 2, ... and keeps the first
position where the matcher succeeds.  `scanA f pre l` tries the matcher
`f` on every decomposition `pre ++ p ++ s` of the input, in order of
increasing `p`, where the matcher receives the full text before the match
position (it only ever inspects its last character, for `\b`). -/

def scanA (f : List Char → List Char → Option α) :
    List Char → List Char → Option α
  | pre, [] => f pre []
  | pre, c :: r =>
    match f pre (c :: r) with
    | some a => some a
    | none => scanA f (pre ++ [c]) r

theorem scanA_eq_none (f : List Char → List Char → Option α) :
    ∀ (l pre : List Char), scanA f pre l = none →
      ∀ p s, l = p ++ s → f (pre ++ p) s = none := by
  intro l
  induction l with
  | nil =>
    intro pre h p s hps
    have hp : p = [] := by
      cases p with
      | nil => rfl
      | cons a t => simp at hps
    subst hp
    simp at hps
    subst hps
    simpa [scanA] using h
  | cons c r ih =>
    intro pre h p s hps
    rw [scanA] at h
    cases hf : f pre (c :: r) with
    | some a => rw [hf] at h; exact absurd h (by simp)
    | none =>
      rw [hf] at h
      cases p with
      | nil =>
        simp at hps
        subst hps
        simpa using hf
      | cons a t =>
        have hac : c = a ∧ r = t ++ s := by simpa using hps
        obtain ⟨rfl, hr⟩ := hac
        have := ih (pre ++ [c]) h t s hr
        simpa [List.append_assoc] using this

theorem scanA_eq_some (f : List Char → List Char → Option α) :
    ∀ (l pre : List Char) (a : α), scanA f pre l = some a →
      ∃ p s, l = p ++ s ∧ f (pre ++ p) s = some a ∧
        ∀ p' s', l = p' ++ s' → p'.length < p.length → f (pre ++ p') s' = none := by
  intro l
  induction l with
  | nil =>
    intro pre a h
    refine ⟨[], [], by simp, by simpa [scanA] using h, ?_⟩
    intro p' s' _ hlt
    simp at hlt
  | cons c r ih =>
    intro pre a h
    rw [scanA] at h
    cases hf : f pre (c :: r) with
    | some b =>
      rw [hf] at h
      have hab : b = a := by simpa using h
      subst hab
      exact ⟨[], c :: r, by simp, by simpa using hf, by intro p' s' _ hlt; simp at hlt⟩
    | none =>
      rw [hf] at h
      obtain ⟨p, s, hps, hmatch, hmin⟩ := ih (pre ++ [c]) a h
      refine ⟨c :: p, s, by simp [hps], by simpa [List.append_assoc] using hmatch, ?_⟩
      intro p' s' hps' hlt
      cases p' with
      | nil =>
        simp at hps'
        subst hps'
        simpa using hf
      | cons a' t' =>
        have hps'' : c = a' ∧ r = t' ++ s' := by simpa using hps'
        obtain ⟨rfl, hr⟩ := hps''
        have hlt' : t'.length < p.length := by simpa using hlt
        have := hmin t' s' hr hlt'
        simpa [List.append_assoc] using this

/-! ## takeWhile / dropWhile helpers -/

theorem takeWhile_append_all {p : Char → Bool} :
    ∀ (l₁ l₂ : List Char), (∀ c ∈ l₁, p c = true) →
      (l₁ ++ l₂).takeWhile p = l₁ ++ l₂.takeWhile p := by
  intro l₁
  induction l₁ with
  | nil => intro l₂ _; simp
  | cons c t ih =>
    intro l₂ h
    have hc : p c = true := h c (by simp)
    simp [List.takeWhile_cons, hc, ih l₂ (fun x hx => h x (by simp [hx]))]

theorem dropWhile_append_all {p : Char → Bool} :
    ∀ (l₁ l₂ : List Char), (∀ c ∈ l₁, p c = true) →
      (l₁ ++ l₂).dropWhile p = l₂.dropWhile p := by
  intro l₁
  induction l₁ with
  | nil => intro l₂ _; simp
  | cons c t ih =>
    intro l₂ h
    have hc : p c = true := h c (by simp)
    simp [List.dropWhile_cons, hc, ih l₂ (fun x hx => h x (by simp [hx]))]

theorem takeWhile_stop {p : Char → Bool} (l₁ : List Char) (x : Char) (l₂ : List Char)
    (h₁ : ∀ c ∈ l₁, p c = true) (h₂ : p x = false) :
    (l₁ ++ x :: l₂).takeWhile p = l₁ := by
  rw [takeWhile_append_all l₁ (x :: l₂) h₁]
  simp [List.takeWhile_cons, h₂]

theorem dropWhile_stop {p : Char → Bool} (l₁ : List Char) (x : Char) (l₂ : List Char)
    (h₁ : ∀ c ∈ l₁, p c = true) (h₂ : p x = false) :
    (l₁ ++ x :: l₂).dropWhile p = x :: l₂ := by
  rw [dropWhile_append_all l₁ (x :: l₂) h₁]
  simp [List.dropWhile_cons, h₂]

theorem mem_takeWhile_pred {p : Char → Bool} :
    ∀ (l : List Char), ∀ c ∈ l.takeWhile p, p c = true := by
  intro l
  induction l with
  | nil => simp
  | cons a t ih =>
    intro c hc
    by_cases h : p a = true
    · rw [List.takeWhile_cons_of_pos h] at hc
      rcases (by simpa using hc : c = a ∨ c ∈ t.takeWhile p) with rfl | hm
      · exact h
      · exact ih c hm
    · rw [List.takeWhile_cons_of_neg (by simpa using h)] at hc
      simp at hc

/-! ## Decompositions of a list at a fixed separator -/

/-- All decompositions `l = p.1 ++ p.2`, with the length of the first part
increasing. -/
def allSplits : List Char → List (List Char × List Char)
  | [] => [([], [])]
  | c :: r => ([], c :: r) :: (allSplits r).map (fun p => (c :: p.1, p.2))

theorem mem_allSplits : ∀ (l a b : List Char), (a, b) ∈ allSplits l ↔ l = a ++ b := by
  intro l
  induction l with
  | nil =>
    intro a b
    constructor
    · intro h
      have : a = [] ∧ b = [] := by simpa [allSplits] using h
      simp [this.1, this.2]
    · intro h
      have ha : a = [] := by cases a <;> simp_all
      have hb : b = [] := by cases a <;> simp_all
      simp [allSplits, ha, hb]
  | cons c r ih =>
    intro a b
    constructor
    · intro h
      rcases (by simpa [allSplits] using h :
          (a = [] ∧ b = c :: r) ∨ ∃ x y, (x, y) ∈ allSplits r ∧ c :: x = a ∧ y = b) with
        ⟨rfl, rfl⟩ | ⟨x, y, hxy, rfl, rfl⟩
      · simp
      · have := (ih x y).1 hxy
        simp [this]
    · intro h
      cases a with
      | nil =>
        simp at h
        simp [allSplits, h]
      | cons a' t =>
        have h2 : c = a' ∧ r = t ++ b := by simpa using h
        obtain ⟨rfl, hr⟩ := h2
        have hm := (ih t b).2 hr
        simp only [allSplits, List.mem_cons, List.mem_map]
        right
        exact ⟨(t, b), hm, rfl⟩

/-- The candidate splits for the regex piece `B+ \.` applied to the maximal
`B`-run `l`: all ways to write `l = b₁ ++ '.' :: b₂` with `b₁` nonempty,
tried with the longest `b₁` first (the regex engine backtracks the greedy
`B+` from the right). -/
def dotSplits (l : List Char) : List (List Char × List Char) :=
  ((allSplits l).filterMap (fun p =>
    if p.1 ≠ [] ∧ p.2.head? = some '.' then some (p.1, p.2.tail) else none)).reverse

theorem mem_dotSplits (l b₁ b₂ : List Char) :
    (b₁, b₂) ∈ dotSplits l ↔ l = b₁ ++ '.' :: b₂ ∧ b₁ ≠ [] := by
  unfold dotSplits
  rw [List.mem_reverse, List.mem_filterMap]
  constructor
  · rintro ⟨⟨x, y⟩, hmem, hf⟩
    have hxy := (mem_allSplits l x y).1 hmem
    by_cases hcond : x ≠ [] ∧ y.head? = some '.'
    · rw [if_pos hcond] at hf
      have hx : x = b₁ ∧ y.tail = b₂ := by simpa using hf
      obtain ⟨rfl, rfl⟩ := hx
      obtain ⟨hne, hh⟩ := hcond
      cases y with
      | nil => simp at hh
      | cons c t =>
        have hc : c = '.' := by simpa using hh
        subst hc
        exact ⟨by simpa using hxy, hne⟩
    · rw [if_neg hcond] at hf
      exact absurd hf (by simp)
  · rintro ⟨hl, hb⟩
    refine ⟨(b₁, '.' :: b₂), (mem_allSplits l b₁ ('.' :: b₂)).2 hl, ?_⟩
    rw [if_pos ⟨hb, rfl⟩]
    rfl

/-- The naturals from `hi` down to `lo` (descending); how the regex engine
backtracks a greedy counted repetition. -/
def descRange (lo hi : Nat) : List Nat := (List.range' lo (hi + 1 - lo)).reverse

theorem mem_descRange (lo hi m : Nat) : m ∈ descRange lo hi ↔ lo ≤ m ∧ m ≤ hi := by
  unfold descRange
  rw [List.mem_reverse, List.mem_range'_1]
  omega

/-! ## Python `str.find` / `str.rfind` -/

/-- `str.find(c)`: index of the first occurrence of `c`, if any
(`None` here stands for Python's `-1`). -/
def strFind (c : Char) : List Char → Option Nat
  | [] => none
  | a :: r => if a = c then some 0 else (strFind c r).map (· + 1)

/-- `str.rfind(c)`: index of the last occurrence of `c`, if any. -/
def strRfind (c : Char) (l : List Char) : Option Nat :=
  (strFind c l.reverse).map (fun k => l.length - 1 - k)

theorem strFind_eq_none {c : Char} : ∀ {l : List Char}, c ∉ l → strFind c l = none := by
  intro l
  induction l with
  | nil => intro _; rfl
  | cons a r ih =>
    intro h
    have ha : ¬ a = c := fun hac => h (by simp [hac])
    simp [strFind, ha, ih (fun hm => h (by simp [hm]))]

theorem strFind_append_left {c : Char} :
    ∀ {l₁ : List Char} (l₂ : List Char), c ∉ l₁ →
      strFind c (l₁ ++ l₂) = (strFind c l₂).map (· + l₁.length) := by
  intro l₁
  induction l₁ with
  | nil =>
    intro l₂ _
    cases h2 : strFind c l₂ <;> simp [h2]
  | cons a r ih =>
    intro l₂ h
    have ha : ¬ a = c := fun hac => h (by simp [hac])
    rw [List.cons_append, strFind, if_neg ha, ih l₂ (fun hm => h (by simp [hm]))]
    cases strFind c l₂ <;> simp
    omega

theorem strFind_lt_length {c : Char} :
    ∀ {l : List Char} {k : Nat}, strFind c l = some k → k < l.length := by
  intro l
  induction l with
  | nil => intro k h; simp [strFind] at h
  | cons a r ih =>
    intro k h
    rw [strFind] at h
    by_cases ha : a = c
    · rw [if_pos ha] at h
      have : k = 0 := by simpa using h.symm
      simp [this]
    · rw [if_neg ha] at h
      cases hr : strFind c r with
      | none => rw [hr] at h; exact absurd h (by simp)
      | some k' =>
        rw [hr] at h
        have : k' + 1 = k := by simpa using h
        have := ih hr
        simp
        omega

/-! ## Python `str.split()` (whitespace split, empty pieces dropped) -/

def splitWsAux : List Char → List Char → List (List Char)
  | cur, [] => if cur = [] then [] else [cur.reverse]
  | cur, c :: r =>
    if c.isWhitespace then
      if cur = [] then splitWsAux [] r else cur.reverse :: splitWsAux [] r
    else splitWsAux (c :: cur) r

def pySplitWs (l : List Char) : List (List Char) := splitWsAux [] l

/-! ## JSON values and `json.loads`

The embedding of Python's `json` module, as used by `_safe_json_parse`.
A number token `m × 10^e` is stored by its parsed components (int digits,
fraction digits and exponent folded into mantissa/exponent form); the
non-standard extras `NaN`/`Infinity` and astral `\u` surrogate pairs are
outside the modelled language. -/

inductive Json where
  | null
  | bool (b : Bool)
  | num (m : Int) (e : Int)
  | str (s : List Char)
  | arr (elems : List Json)
  | obj (fields : List (List Char × Json))
deriving Repr

def isJsonWs (c : Char) : Bool := c = ' ' || c = '\t' || c = '\n' || c = '\r'

def skipWs (l : List Char) : List Char := l.dropWhile isJsonWs

def hexVal (c : Char) : Option Nat :=
  if c.isDigit then some (c.toNat - 48)
  else if 'a' ≤ c && c ≤ 'f' then some (c.toNat - 87)
  else if 'A' ≤ c && c ≤ 'F' then some (c.toNat - 55)
  else none

def escChar : Char → Option Char
  | '"' => some '"'
  | '\\' => some '\\'
  | '/' => some '/'
  | 'b' => some (Char.ofNat 8)
  | 'f' => some (Char.ofNat 12)
  | 'n' => some '\n'
  | 'r' => some '\r'
  | 't' => some '\t'
  | _ => none

/-- Parse the body of a JSON string literal (after the opening quote),
returning the decoded characters and the rest of the input.  Raw control
characters below 0x20 are rejected, as in `json.loads` strict mode. -/
def parseJString : List Char → Option (List Char × List Char)
  | [] => none
  | c :: r =>
    if c = '"' then some ([], r)
    else if c = '\\' then
      match r with
      | [] => none
      | e :: r2 =>
        if e = 'u' then
          match r2 with
          | h1 :: h2 :: h3 :: h4 :: r3 =>
            match hexVal h1, hexVal h2, hexVal h3, hexVal h4 with
            | some a, some b, some c3, some d =>
              (parseJString r3).map
                (fun p => (Char.ofNat (((a * 16 + b) * 16 + c3) * 16 + d) :: p.1, p.2))
            | _, _, _, _ => none
          | _ => none
        else
          match escChar e with
          | some ec => (parseJString r2).map (fun p => (ec :: p.1, p.2))
          | none => none
    else if c.toNat < 32 then none
    else (parseJString r).map (fun p => (c :: p.1, p.2))

def digitsToNat (ds : List Char) : Nat := ds.foldl (fun a c => a * 10 + (c.toNat - 48)) 0

/-- JSON integer-part digits: `0` or a nonzero digit followed by digits. -/
def parseIntDigits (l : List Char) : Option (List Char × List Char) :=
  match l.takeWhile Char.isDigit with
  | [] => none
  | ['0'] => some (['0'], l.dropWhile Char.isDigit)
  | '0' :: _ :: _ => none
  | ds => some (ds, l.dropWhile Char.isDigit)

def parseFrac : List Char → Option (List Char × List Char)
  | '.' :: t =>
    match t.takeWhile Char.isDigit with
    | [] => none
    | ds => some (ds, t.dropWhile Char.isDigit)
  | l => some ([], l)

def parseExp : List Char → Option (Int × List Char)
  | [] => some (0, [])
  | c :: t =>
    if c = 'e' || c = 'E' then
      let st : Int × List Char :=
        match t with
        | '+' :: u => (1, u)
        | '-' :: u => (-1, u)
        | u => (1, u)
      match st.2.takeWhile Char.isDigit with
      | [] => none
      | ds => some (st.1 * (digitsToNat ds : Int), st.2.dropWhile Char.isDigit)
    else some (0, c :: t)

def parseNumber (l : List Char) : Option (Json × List Char) :=
  let sl : Bool × List Char := match l with | '-' :: t => (true, t) | t => (false, t)
  match parseIntDigits sl.2 with
  | none => none
  | some (ids, r1) =>
    match parseFrac r1 with
    | none => none
    | some (fds, r2) =>
      match parseExp r2 with
      | none => none
      | some (ex, r3) =>
        let mag : Int := (digitsToNat (ids ++ fds) : Int)
        some (Json.num (if sl.1 then -mag else mag) (ex - fds.length), r3)

/-- Python `dict` insertion while building an object: a duplicate key
overwrites the value in place, a new key is appended. -/
def objInsert : List (List Char × Json) → List Char → Json → List (List Char × Json)
  | [], k, v => [(k, v)]
  | (k', v') :: t, k, v => if k' = k then (k, v) :: t else (k', v') :: objInsert t k v

mutual

def parseValue : Nat → List Char → Option (Json × List Char)
  | 0, _ => none
  | fuel + 1, l =>
    match skipWs l with
    | [] => none
    | c :: r =>
      if c = 'n' then
        match r with | 'u' :: 'l' :: 'l' :: r2 => some (.null, r2) | _ => none
      else if c = 't' then
        match r with | 'r' :: 'u' :: 'e' :: r2 => some (.bool true, r2) | _ => none
      else if c = 'f' then
        match r with | 'a' :: 'l' :: 's' :: 'e' :: r2 => some (.bool false, r2) | _ => none
      else if c = '"' then (parseJString r).map (fun p => (.str p.1, p.2))
      else if c = '[' then
        match skipWs r with
        | ']' :: r2 => some (.arr [], r2)
        | _ => parseArrRest fuel r []
      else if c = '\x7b' then
        match skipWs r with
        | '\x7d' :: r2 => some (.obj [], r2)
        | _ => parseObjRest fuel r []
      else if c = '-' || c.isDigit then parseNumber (c :: r)
      else none

def parseArrRest : Nat → List Char → List Json → Option (Json × List Char)
  | 0, _, _ => none
  | fuel + 1, l, acc =>
    match parseValue fuel l with
    | none => none
    | some (j, r) =>
      match skipWs r with
      | ',' :: r2 => parseArrRest fuel r2 (acc ++ [j])
      | ']' :: r2 => some (.arr (acc ++ [j]), r2)
      | _ => none

def parseObjRest : Nat → List Char → List (List Char × Json) → Option (Json × List Char)
  | 0, _, _ => none
  | fuel + 1, l, acc =>
    match skipWs l with
    | '"' :: r =>
      match parseJString r with
      | none => none
      | some (key, r2) =>
        match skipWs r2 with
        | ':' :: r3 =>
          match parseValue fuel r3 with
          | none => none
          | some (v, r4) =>
            match skipWs r4 with
            | ',' :: r5 => parseObjRest fuel r5 (objInsert acc key v)
            | '\x7d' :: r5 => some (.obj (objInsert acc key v), r5)
            | _ => none
        | _ => none
    | _ => none

end

/-- `json.loads`: parse one JSON value and require only whitespace after it. -/
def json_loads (l : List Char) : Option Json :=
  match parseValue (2 * l.length + 2) l with
  | some (j, rest) => if skipWs rest = [] then some j else none
  | none => none

/-! ## `ResumeAnalyzer._safe_json_parse` (the Result Coercer)

```python
try:
    start = text.find('{')
    end = text.rfind('}') + 1
    if start >= 0 and end > start:
        json_str = text[start:end]
        return json.loads(json_str)
except:
    pass
return default
``` -/

def safe_json_parse (text : List Char) (default : Json) : Json :=
  match strFind '\x7b' text, strRfind '\x7d' text with
  | some s, some e =>
    if s ≤ e then
      match json_loads ((text.drop s).take (e + 1 - s)) with
      | some j => j
      | none => default
    else default
  | _, _ => default

/-! ## The three `re.findall` patterns of `_extract_information`

Character classes (ASCII semantics):
- email: `\b[A-Za-z0-9._%+-]+@[A-Za-z0-9.-]+\.[A-Z|a-z]{2,}\b`
- phone: `[\+\(]?[1-9][0-9 .\-\(\)]{8,}[0-9]`
- years: `(\d+)\s*(?:years?|yrs?)` (applied to the lower-cased text)

Each matcher takes the text before the match position (for `\b`) and the
text from the match position, and returns the matched string; the scan
over positions is `scanA`, mirroring the regex engine's leftmost search.
Greedy sub-matches that the engine would backtrack are enumerated in the
engine's order (`dotSplits`, `descRange`). -/

def charA (c : Char) : Bool :=
  c.isAlphanum || c = '.' || c = '_' || c = '%' || c = '+' || c = '-'

def charB (c : Char) : Bool := c.isAlphanum || c = '.' || c = '-'

def charC (c : Char) : Bool := c.isAlpha || c = '|'

/-- The `[A-Z|a-z]{2,}\b` tail of the email pattern, run on the text after
the mandatory dot: pick the number of consumed characters, longest first,
at least 2, such that a word boundary follows. -/
def emailTail (l2 : List Char) : Option Nat :=
  (descRange 2 (l2.takeWhile charC).length).findSome?
    (fun m => if boundary ((l2.take m).getLast?) ((l2.drop m).head?) then some m else none)

def emailMatchHere (pre suf : List Char) : Option (List Char) :=
  if boundary pre.getLast? suf.head? then
    if suf.takeWhile charA = [] then none
    else if (suf.dropWhile charA).head? = some '@' then
      (dotSplits ((suf.dropWhile charA).tail.takeWhile charB)).findSome? (fun p =>
        (emailTail (p.2 ++ (suf.dropWhile charA).tail.dropWhile charB)).map
          (fun m => suf.takeWhile charA ++ '@' :: p.1
            ++ '.' :: (p.2 ++ (suf.dropWhile charA).tail.dropWhile charB).take m))
    else none
  else none

def phoneLead (c : Char) : Bool := c = '+' || c = '('

def phoneBody (c : Char) : Bool :=
  c.isDigit || c = ' ' || c = '.' || c = '-' || c = '(' || c = ')'

def phoneCore : List Char → Option (List Char)
  | [] => none
  | d :: rest =>
    if d.isDigit && d != '0' then
      let run := rest.takeWhile phoneBody
      match (descRange 8 (run.length - 1)).findSome?
          (fun m => match run.get? m with
            | some x => if x.isDigit then some m else none
            | none => none) with
      | some m => some (d :: run.take (m + 1))
      | none => none
    else none

def phoneMatchHere (_pre suf : List Char) : Option (List Char) :=
  match suf with
  | [] => none
  | c :: r =>
    if phoneLead c then
      match phoneCore r with
      | some s => some (c :: s)
      | none => phoneCore suf
    else phoneCore suf

/-- `(\d+)\s*(?:years?|yrs?)`: `re.findall` returns the captured digit
group; `\s` is modelled by `Char.isWhitespace` (ASCII).  The greedy `\d+`
and `\s*` are deterministic here (no shorter extent can be followed by
`y`), so the matcher takes the maximal runs. -/
def yearMatchHere (_pre suf : List Char) : Option (List Char) :=
  if suf.takeWhile Char.isDigit = [] then none
  else if "year".data.isPrefixOf ((suf.dropWhile Char.isDigit).dropWhile Char.isWhitespace)
      || "yr".data.isPrefixOf ((suf.dropWhile Char.isDigit).dropWhile Char.isWhitespace)
  then some (suf.takeWhile Char.isDigit) else none

/-- `re.search(r'\b' + re.escape(kw) + r'\b', text)` for a literal keyword
`kw` (every keyword is matched verbatim because it is escaped). -/
def wordMatchHere (kw : List Char) (pre suf : List Char) : Option Unit :=
  if kw.isPrefixOf suf && boundary pre.getLast? kw.head?
      && boundary kw.getLast? ((suf.drop kw.length).head?)
  then some () else none

def reWordSearch (kw text : List Char) : Bool := (scanA (wordMatchHere kw) [] text).isSome

/-! ## `ResumeParser` -/

/-- `_load_skill_keywords` (verbatim from the source). -/
def skill_keywords : List (List Char) :=
  ["python".data, "java".data, "javascript".data, "react".data, "node.js".data,
   "sql".data, "nosql".data,
   "aws".data, "docker".data, "kubernetes".data, "machine learning".data,
   "deep learning".data,
   "tensorflow".data, "pytorch".data, "data analysis".data, "tableau".data,
   "power bi".data,
   "agile".data, "scrum".data, "devops".data, "ci/cd".data, "git".data,
   "rest api".data, "graphql".data,
   "html".data, "css".data, "typescript".data, "angular".data, "vue".data,
   "mongodb".data, "postgresql".data,
   "mysql".data, "redis".data, "linux".data, "unix".data, "bash".data,
   "shell".data, "powershell".data]

/-- The education keyword list, verbatim: the Python source strings
`'b\.'` and `'m\.'` contain a literal backslash (left by the unrecognized
escape), and `'phd'` appears twice. -/
def education_keywords : List (List Char) :=
  ["bachelor".data, "master".data, "phd".data, "degree".data, "university".data,
   "college".data, "b\\.".data, "m\\.".data, "phd".data]

structure ResumeInfo where
  email : List Char
  phone : List Char
  skills : List (List Char)
  education : List (List Char)
  experience_years : List Char
  raw_text : List Char
  word_count : Nat
  character_count : Nat
deriving DecidableEq, Repr

/-- `_extract_information`.  `list(set(...))` is modelled by `List.dedup`
(the spec treats education signals as an order-insignificant set). -/
def extract_information (text : List Char) : ResumeInfo :=
  let lower := text.map Char.toLower
  { email := (scanA emailMatchHere [] text).getD "Not found".data
  , phone := (scanA phoneMatchHere [] text).getD "Not found".data
  , skills := skill_keywords.filter (fun kw => reWordSearch kw lower)
  , education := (education_keywords.filter (fun kw => reWordSearch kw lower)).dedup
  , experience_years := (scanA yearMatchHere [] lower).getD "Not specified".data
  , raw_text := text
  , word_count := (pySplitWs text).length
  , character_count := text.length }

/-- The parser input: a file-like upload (an object with a `read`
attribute, carrying its `.name`) or plain text. -/
inductive ResumeInput where
  | fileUpload (name : String) (content : List Char)
  | textInput (text : List Char)

/-- `file.name.split('.')[-1].lower()` -/
def file_extension (name : String) : List Char :=
  ((name.data.splitOn '.').getLastD []).map Char.toLower

/-- `parse_resume`.  The binary readers (PyPDF2, python-docx, utf-8
decoding) are external capabilities, passed as fallible functions from the
file content to extracted text.  A file-like input whose extension is
none of pdf/docx/txt falls through the dispatch and Python returns
`None`. -/
def parse_resume
    (pdfRead docxRead txtRead : List Char → Except (List Char) (List Char)) :
    ResumeInput → Option ResumeInfo
  | .fileUpload name content =>
    let ext := file_extension name
    if ext = "pdf".data then
      some (match pdfRead content with
        | .ok t => extract_information t
        | .error e => extract_information ("PDF parsing error: ".data ++ e))
    else if ext = "docx".data then
      some (match docxRead content with
        | .ok t => extract_information t
        | .error e => extract_information ("DOCX parsing error: ".data ++ e))
    else if ext = "txt".data then
      some (match txtRead content with
        | .ok t => extract_information t
        | .error e => extract_information ("TXT parsing error: ".data ++ e))
    else none
  | .textInput t => some (extract_information t)

/-! ## `ResumeAnalyzer` (model selection and the job-match operation)

The external completion backend is a parameter
`invoke : ChatGroq → String → Except String String`: given a model handle
and a prompt, it returns the completion's text content or fails. -/

structure ChatGroq where
  model_name : String
  api_key : Option String
deriving DecidableEq, Repr

/-- Python's `pat in s` substring test. -/
def containsSub (pat : List Char) : List Char → Bool
  | [] => pat.isPrefixOf []
  | c :: r => pat.isPrefixOf (c :: r) || containsSub pat r

def get_llm (groq_api_key : Option String) (choice : String) : ChatGroq :=
  if containsSub "8B".data choice.data || containsSub "Fast".data choice.data then
    ⟨"llama-3.1-8b-instant", groq_api_key⟩
  else if containsSub "70B".data choice.data || containsSub "Powerful".data choice.data then
    ⟨"llama-3.1-70b-versatile", groq_api_key⟩
  else
    ⟨"llama-3.1-8b-instant", groq_api_key⟩

/-- `_get_safe_llm`: resolve the model, probe it with a trivial
completion, and fall back to the 8B model on any probe failure. -/
def get_safe_llm (groq_api_key : Option String)
    (invoke : ChatGroq → String → Except String String) (choice : String) : ChatGroq :=
  match invoke (get_llm groq_api_key choice) "Say 'test'" with
  | .ok _ => get_llm groq_api_key choice
  | .error _ => ⟨"llama-3.1-8b-instant", groq_api_key⟩

/-- `PromptTemplate` rendering with Python `str.format` semantics:
`\x7b\x7b`/`\x7d\x7d` are literal braces, `\x7bname\x7d` is substituted. -/
def formatTemplate (vars : List (List Char × List Char)) :
    Nat → List Char → List Char
  | 0, l => l
  | _ + 1, [] => []
  | fuel + 1, c :: r =>
    if c = '\x7b' then
      match r with
      | '\x7b' :: r2 => '\x7b' :: formatTemplate vars fuel r2
      | _ =>
        let name := r.takeWhile (fun x => x != '\x7d')
        let rest := (r.dropWhile (fun x => x != '\x7d')).drop 1
        ((vars.lookup name).getD []) ++ formatTemplate vars fuel rest
    else if c = '\x7d' then
      match r with
      | '\x7d' :: r2 => '\x7d' :: formatTemplate vars fuel r2
      | _ => c :: formatTemplate vars fuel r
    else c :: formatTemplate vars fuel r

/-- The `job_match_analysis` prompt template, verbatim. -/
def job_match_template : String :=
  "\n        Analyze the match between resume and job description. Return ONLY valid JSON:\n        \n        RESUME: \x7bresume_text\x7d\n        JOB: \x7bjob_description\x7d\n        \n        JSON structure:\n        \x7b\x7b\n            \"match_score\": 85,\n            \"category_scores\": \x7b\x7b\n                \"skills\": 90,\n                \"experience\": 80,\n                \"education\": 85,\n                \"culture_fit\": 75\n            \x7d\x7d,\n            \"strengths\": [\"Strong technical skills\", \"Relevant experience\"],\n            \"improvements\": [\"Gain leadership experience\", \"Learn specific technology\"]\n        \x7d\x7d\n        "

/-- The hand-authored default result of `job_match_analysis`, verbatim. -/
def job_match_default : Json :=
  .obj [("match_score".data, .num 70 0),
        ("category_scores".data,
          .obj [("skills".data, .num 75 0), ("experience".data, .num 65 0),
                ("education".data, .num 70 0), ("culture_fit".data, .num 60 0)]),
        ("strengths".data,
          .arr [.str "Good foundational skills".data,
                .str "Relevant educational background".data]),
        ("improvements".data,
          .arr [.str "Gain more industry experience".data,
                .str "Develop missing technical skills".data])]

/-- `job_match_analysis`: resolve a verified model, render the prompt,
make the main completion call (whose failure propagates), and coerce the
completion's content with `safe_json_parse`. -/
def job_match_analysis (groq_api_key : Option String)
    (invoke : ChatGroq → String → Except String String)
    (resume_text job_description llm_choice : String) : Except String Json :=
  let llm := get_safe_llm groq_api_key invoke llm_choice
  let prompt := formatTemplate
    [("resume_text".data, resume_text.data),
     ("job_description".data, job_description.data)]
    job_match_template.data.length job_match_template.data
  match invoke llm (String.mk prompt) with
  | .ok content => .ok (safe_json_parse content.data job_match_default)
  | .error e => .error e

/-! ## Basic lemmas -/

theorem isPrefixOf_exists : ∀ (a l : List Char), a.isPrefixOf l = true ↔ ∃ u, l = a ++ u := by
  intro a
  induction a with
  | nil => intro l; simp [List.isPrefixOf]
  | cons c t ih =>
    intro l
    cases l with
    | nil => simp [List.isPrefixOf]
    | cons c' t' =>
      simp only [List.isPrefixOf, Bool.and_eq_true, beq_iff_eq]
      constructor
      · rintro ⟨rfl, h⟩
        obtain ⟨u, rfl⟩ := (ih t').1 h
        exact ⟨u, rfl⟩
      · rintro ⟨u, hu⟩
        injection hu with h1 h2
        exact ⟨h1.symm, (ih t').2 ⟨u, h2⟩⟩

theorem strRfind_eq_none {c : Char} {l : List Char} (h : c ∉ l) : strRfind c l = none := by
  unfold strRfind
  rw [strFind_eq_none (by simpa using h)]
  rfl

theorem strRfind_lt_length {c : Char} {l : List Char} {e : Nat}
    (h : strRfind c l = some e) : e < l.length := by
  unfold strRfind at h
  cases hf : strFind c l.reverse with
  | none => rw [hf] at h; exact absurd h (by simp)
  | some k =>
    rw [hf] at h
    have hk : k < l.length := by simpa using strFind_lt_length hf
    have : l.length - 1 - k = e := by simpa using h
    omega

/-- All contiguous slices `l[i:i+m]` of `l`. -/
def substrings (l : List Char) : List (List Char) :=
  (List.range (l.length + 1)).flatMap
    (fun i => (List.range (l.length + 1)).map (fun m => (l.drop i).take m))

theorem slice_mem_substrings {l : List Char} {i m : Nat}
    (hi : i ≤ l.length) (hm : m ≤ l.length) : (l.drop i).take m ∈ substrings l := by
  unfold substrings
  rw [List.mem_flatMap]
  refine ⟨i, by rw [List.mem_range]; omega, ?_⟩
  rw [List.mem_map]
  exact ⟨m, by rw [List.mem_range]; omega, rfl⟩

/-! ## Lemmas about `safe_json_parse` -/

theorem sjp_eq_of_both_some {text : List Char} {d : Json} {s e : Nat}
    (hS : strFind '\x7b' text = some s) (hE : strRfind '\x7d' text = some e) :
    safe_json_parse text d =
      if s ≤ e then
        match json_loads ((text.drop s).take (e + 1 - s)) with
        | some j => j
        | none => d
      else d := by
  unfold safe_json_parse
  rw [hS, hE]

theorem sjp_default_of_missing_brace {text : List Char} {d : Json}
    (h : '\x7b' ∉ text ∨ '\x7d' ∉ text) : safe_json_parse text d = d := by
  unfold safe_json_parse
  rcases h with h | h
  · rw [strFind_eq_none h]
  · rw [strRfind_eq_none h]
    cases strFind '\x7b' text <;> rfl

theorem sjp_default_of_no_parse {text : List Char} {d : Json}
    (h : ∀ s ∈ substrings text, json_loads s = none) : safe_json_parse text d = d := by
  cases hS : strFind '\x7b' text with
  | none =>
    unfold safe_json_parse
    rw [hS]
  | some s =>
    cases hE : strRfind '\x7d' text with
    | none =>
      unfold safe_json_parse
      rw [hS, hE]
    | some e =>
      rw [sjp_eq_of_both_some hS hE]
      by_cases hse : s ≤ e
      · rw [if_pos hse]
        have hs := strFind_lt_length hS
        have he := strRfind_lt_length hE
        rw [h ((text.drop s).take (e + 1 - s)) (slice_mem_substrings (by omega) (by omega))]
      · rw [if_neg hse]

theorem sjp_extracts_object {pre obj post : List Char} {d j : Json}
    (hloads : json_loads obj = some j)
    (hhead : obj.head? = some '\x7b') (hlast : obj.getLast? = some '\x7d')
    (hpre : '\x7b' ∉ pre) (hpost : '\x7d' ∉ post) :
    safe_json_parse (pre ++ obj ++ post) d = j := by
  obtain ⟨t, rfl⟩ : ∃ t, obj = '\x7b' :: t := by
    cases obj with
    | nil => simp at hhead
    | cons c u =>
      have hc : c = '\x7b' := by simpa using hhead
      exact ⟨u, by rw [hc]⟩
  have hfind : strFind '\x7b' (pre ++ ('\x7b' :: t) ++ post) = some pre.length := by
    rw [List.append_assoc, strFind_append_left _ hpre]
    simp [strFind]
  have hrevhead : ('\x7b' :: t).reverse.head? = some '\x7d' := by
    rw [List.head?_reverse]
    exact hlast
  obtain ⟨u, hu⟩ : ∃ u, ('\x7b' :: t).reverse = '\x7d' :: u := by
    cases hrev : ('\x7b' :: t).reverse with
    | nil => rw [hrev] at hrevhead; simp at hrevhead
    | cons c u =>
      rw [hrev] at hrevhead
      have hc : c = '\x7d' := by simpa using hrevhead
      exact ⟨u, by rw [hc]⟩
  have hlen : ('\x7b' :: t).reverse.length = ('\x7b' :: t).length := by simp
  have hrfind : strRfind '\x7d' (pre ++ ('\x7b' :: t) ++ post)
      = some (pre.length + ('\x7b' :: t).length - 1) := by
    unfold strRfind
    rw [List.reverse_append, List.reverse_append, List.append_assoc,
      strFind_append_left _ (by simpa using hpost), hu]
    simp [strFind, List.length_append]
    omega
  rw [sjp_eq_of_both_some hfind hrfind]
  rw [if_pos (by simp only [List.length_cons]; omega)]
  rw [List.append_assoc, List.drop_left pre (('\x7b' :: t) ++ post)]
  rw [show pre.length + ('\x7b' :: t).length - 1 + 1 - pre.length = ('\x7b' :: t).length by
    simp only [List.length_cons]; omega, List.take_left ('\x7b' :: t) post, hloads]

/-! ## Claim C1 -/

/-- C1: for every raw completion with no `\x7b`/`\x7d` pair — and in
general whenever no substring of the completion parses as JSON —
`safe_json_parse` returns the default unchanged; end-to-end, a
`job_match_analysis` call whose completion backend returns non-JSON prose
returns exactly the literal hand-authored default match-result structure
(match_score 70, category_scores skills 75 / experience 65 / education 70 /
culture_fit 60, the two fixed strengths and two fixed improvements),
with no error surfaced. -/
theorem C1_job_match_defaults_on_prose :
    (∀ (text : List Char) (d : Json),
        '\x7b' ∉ text ∨ '\x7d' ∉ text → safe_json_parse text d = d) ∧
    (∀ (text : List Char) (d : Json),
        (∀ s ∈ substrings text, json_loads s = none) → safe_json_parse text d = d) ∧
    (∀ (key : Option String) (resume jd choice : String),
        job_match_analysis key
          (fun _ _ => .ok "The resume is a fine match for this role overall.")
          resume jd choice = .ok job_match_default) ∧
    job_match_default = Json.obj
      [("match_score".data, Json.num 70 0),
       ("category_scores".data, Json.obj
          [("skills".data, Json.num 75 0), ("experience".data, Json.num 65 0),
           ("education".data, Json.num 70 0), ("culture_fit".data, Json.num 60 0)]),
       ("strengths".data, Json.arr
          [Json.str "Good foundational skills".data,
           Json.str "Relevant educational background".data]),
       ("improvements".data, Json.arr
          [Json.str "Gain more industry experience".data,
           Json.str "Develop missing technical skills".data])] := by
  refine ⟨fun _ _ h => sjp_default_of_missing_brace h,
          fun _ _ h => sjp_default_of_no_parse h, ?_, rfl⟩
  intro key resume jd choice
  simp only [job_match_analysis, get_safe_llm]
  rw [sjp_default_of_missing_brace (Or.inl (by decide))]

theorem C1_witness :
    safe_json_parse "Model output with no JSON at all.".data (Json.num 5 0) = Json.num 5 0 :=
  C1_job_match_defaults_on_prose.1 _ _ (Or.inl (by decide))

/-! ## Claim C2 -/

/-- A completion that wraps one well-formed JSON object in prose,
with `match_score` 42 (out of the 0-100 range the templates suggest). -/
def completion42 : String :=
  "Here is the result: \x7b\"match_score\": 42, \"category_scores\": \x7b\"skills\": 40, \"experience\": 45, \"education\": 50, \"culture_fit\": 35\x7d, \"strengths\": [\"Python\"], \"improvements\": [\"Add SQL\"]\x7d"

/-- The parse of the object inside `completion42`. -/
def json42 : Json :=
  .obj [("match_score".data, .num 42 0),
        ("category_scores".data,
          .obj [("skills".data, .num 40 0), ("experience".data, .num 45 0),
                ("education".data, .num 50 0), ("culture_fit".data, .num 35 0)]),
        ("strengths".data, .arr [.str "Python".data]),
        ("improvements".data, .arr [.str "Add SQL".data])]

/-- C2 fails as stated: `"\x7b\"a\": 1\x7d \x7d"` contains exactly one
well-formed JSON object surrounded by prose, but the prose's stray
closing brace makes the outermost-brace slice unparseable, so the coercer
returns the default instead of the parsed object. -/
theorem C2_counterexample :
    safe_json_parse "\x7b\"a\": 1\x7d \x7d".data (Json.obj []) = Json.obj [] ∧
    json_loads "\x7b\"a\": 1\x7d".data = some (Json.obj [("a".data, Json.num 1 0)]) ∧
    Json.obj [] ≠ Json.obj [("a".data, Json.num 1 0)] := by
  refine ⟨rfl, rfl, ?_⟩
  intro h
  simp at h

/-- C2 (amended): if the single well-formed JSON object's braces are the
outermost braces of the completion — no `\x7b` in the prose before it and
no `\x7d` in the prose after it — the coercer returns that parsed object
verbatim, with no schema validation and no range clamping; end-to-end,
`job_match_analysis` over a backend returning `completion42` yields
`match_score` 42 unchanged. -/
theorem C2_job_match_verbatim_object :
    (∀ (pre obj post : List Char) (d j : Json),
        json_loads obj = some j →
        obj.head? = some '\x7b' → obj.getLast? = some '\x7d' →
        '\x7b' ∉ pre → '\x7d' ∉ post →
        safe_json_parse (pre ++ obj ++ post) d = j) ∧
    (∀ (key : Option String) (resume jd choice : String),
        job_match_analysis key (fun _ _ => .ok completion42) resume jd choice
          = .ok json42) := by
  refine ⟨fun _ _ _ _ _ h1 h2 h3 h4 h5 => sjp_extracts_object h1 h2 h3 h4 h5, ?_⟩
  intro key resume jd choice
  simp only [job_match_analysis, get_safe_llm]
  rfl

theorem C2_witness :
    safe_json_parse ("Sure: ".data ++ "\x7b\"ok\": true\x7d".data ++ " end".data) Json.null
      = Json.obj [("ok".data, Json.bool true)] :=
  C2_job_match_verbatim_object.1 "Sure: ".data "\x7b\"ok\": true\x7d".data " end".data
    Json.null (Json.obj [("ok".data, Json.bool true)]) rfl rfl rfl (by decide) (by decide)

/-! ## Claim C4 -/

/-- C4: the safe model getter is total (it always returns either the
resolved handle or the lightweight fallback), returns the lightweight
`llama-3.1-8b-instant` handle unconditionally whenever the liveness probe
fails for any reason, and consults the backend only through the single
probe call (no retry): its result depends only on the probe's outcome. -/
theorem C4_get_safe_llm_fallback :
    (∀ (key : Option String) (invoke : ChatGroq → String → Except String String)
        (choice : String),
        (∃ e, invoke (get_llm key choice) "Say 'test'" = .error e) →
        get_safe_llm key invoke choice = ⟨"llama-3.1-8b-instant", key⟩) ∧
    (∀ (key : Option String) (invoke : ChatGroq → String → Except String String)
        (choice : String),
        get_safe_llm key invoke choice = get_llm key choice ∨
        get_safe_llm key invoke choice = ⟨"llama-3.1-8b-instant", key⟩) ∧
    (∀ (key : Option String) (choice : String)
        (i1 i2 : ChatGroq → String → Except String String),
        i1 (get_llm key choice) "Say 'test'" = i2 (get_llm key choice) "Say 'test'" →
        get_safe_llm key i1 choice = get_safe_llm key i2 choice) := by
  refine ⟨?_, ?_, ?_⟩
  · rintro key invoke choice ⟨e, he⟩
    unfold get_safe_llm
    rw [he]
  · intro key invoke choice
    unfold get_safe_llm
    cases invoke (get_llm key choice) "Say 'test'" with
    | ok _ => exact Or.inl rfl
    | error _ => exact Or.inr rfl
  · intro key choice i1 i2 h
    unfold get_safe_llm
    rw [h]

theorem C4_witness :
    get_safe_llm (some "k") (fun _ _ => .error "model decommissioned")
      "Groq (Llama-3.1-70B - Powerful)" = ⟨"llama-3.1-8b-instant", some "k"⟩ :=
  C4_get_safe_llm_fallback.1 (some "k") _ _ ⟨"model decommissioned", rfl⟩

/-! ## Claim C7 -/

/-- C7: `_get_llm` is a pure total function on choice labels, dispatching
in order: a label containing an `8B`/`Fast` marker resolves to the
lightweight model; otherwise a label containing a `70B`/`Powerful` marker
resolves to the heavyweight model; any other label resolves to the
lightweight model.  The two menu labels resolve to distinct handles and
an unrecognized label resolves to the lightweight handle. -/
theorem C7_get_llm_total_policy :
    (∀ (key : Option String) (choice : String),
        (containsSub "8B".data choice.data || containsSub "Fast".data choice.data) = true →
        get_llm key choice = ⟨"llama-3.1-8b-instant", key⟩) ∧
    (∀ (key : Option String) (choice : String),
        (containsSub "8B".data choice.data || containsSub "Fast".data choice.data) = false →
        (containsSub "70B".data choice.data || containsSub "Powerful".data choice.data) = true →
        get_llm key choice = ⟨"llama-3.1-70b-versatile", key⟩) ∧
    (∀ (key : Option String) (choice : String),
        (containsSub "8B".data choice.data || containsSub "Fast".data choice.data) = false →
        (containsSub "70B".data choice.data || containsSub "Powerful".data choice.data) = false →
        get_llm key choice = ⟨"llama-3.1-8b-instant", key⟩) ∧
    (∀ key : Option String,
        get_llm key "Groq (Llama-3.1-8B - Fast)" = ⟨"llama-3.1-8b-instant", key⟩ ∧
        get_llm key "Groq (Llama-3.1-70B - Powerful)" = ⟨"llama-3.1-70b-versatile", key⟩ ∧
        get_llm key "unrecognized label" = ⟨"llama-3.1-8b-instant", key⟩ ∧
        (⟨"llama-3.1-8b-instant", key⟩ : ChatGroq) ≠ ⟨"llama-3.1-70b-versatile", key⟩) := by
  refine ⟨?_, ?_, ?_, ?_⟩
  · intro key choice h
    simp [get_llm, h]
  · intro key choice h1 h2
    simp [get_llm, h1, h2]
  · intro key choice h1 h2
    simp [get_llm, h1, h2]
  · intro key
    refine ⟨rfl, rfl, rfl, ?_⟩
    intro h
    simp at h

theorem C7_witness :
    get_llm (some "k") "Groq (Llama-3.1-70B - Powerful)"
      = ⟨"llama-3.1-70b-versatile", some "k"⟩ :=
  C7_get_llm_total_policy.2.1 (some "k") "Groq (Llama-3.1-70B - Powerful)"
    (by decide) (by decide)

/-! ## Claim C8 -/

/-- C8: extraction from the empty string yields the email and phone
sentinels, empty skill and education lists, the experience-years
sentinel, and zero word and character counts. -/
theorem C8_extract_empty :
    extract_information [] =
      { email := "Not found".data, phone := "Not found".data, skills := [],
        education := [], experience_years := "Not specified".data, raw_text := [],
        word_count := 0, character_count := 0 } := by
  rfl

/-! ## Claim C9 -/

/-- C9: for a file-like input whose declared extension (the lower-cased
last dot-separated component of the file name) is none of pdf/docx/txt,
`parse_resume` silently falls through the dispatch and returns no record
at all — no error, no placeholder text. -/
theorem C9_parse_resume_unknown_ext :
    ∀ (pdfR docxR txtR : List Char → Except (List Char) (List Char))
      (name : String) (content : List Char),
      file_extension name ∉ ["pdf".data, "docx".data, "txt".data] →
      parse_resume pdfR docxR txtR (.fileUpload name content) = none := by
  intro pdfR docxR txtR name content h
  simp only [List.mem_cons, List.not_mem_nil, or_false] at h
  push_neg at h
  obtain ⟨h1, h2, h3⟩ := h
  simp only [parse_resume]
  rw [if_neg h1, if_neg h2, if_neg h3]

theorem C9_witness :
    parse_resume (fun _ => .ok []) (fun _ => .ok []) (fun _ => .ok [])
      (.fileUpload "resume.rtf" "x".data) = none :=
  C9_parse_resume_unknown_ext _ _ _ "resume.rtf" "x".data (by decide)

/-! ## Whole-word search: equivalence with its declarative reading -/

/-- `kw` occurs in `t` delimited by word boundaries on both sides. -/
def OccursWholeWord (kw t : List Char) : Prop :=
  ∃ p u, t = p ++ kw ++ u ∧ boundary p.getLast? kw.head? = true ∧
    boundary kw.getLast? u.head? = true

theorem wordMatchHere_eq_some {kw pre suf : List Char}
    (h : wordMatchHere kw pre suf = some ()) :
    ∃ u, suf = kw ++ u ∧ boundary pre.getLast? kw.head? = true ∧
      boundary kw.getLast? u.head? = true := by
  unfold wordMatchHere at h
  by_cases hc : (kw.isPrefixOf suf && boundary pre.getLast? kw.head?
      && boundary kw.getLast? ((suf.drop kw.length).head?)) = true
  · simp only [Bool.and_eq_true] at hc
    obtain ⟨⟨hp, hb1⟩, hb2⟩ := hc
    obtain ⟨u, rfl⟩ := (isPrefixOf_exists kw suf).1 hp
    rw [List.drop_left] at hb2
    exact ⟨u, rfl, hb1, hb2⟩
  · rw [if_neg hc] at h
    exact absurd h (by simp)

theorem wordMatchHere_complete {kw pre u : List Char}
    (hb1 : boundary pre.getLast? kw.head? = true)
    (hb2 : boundary kw.getLast? u.head? = true) :
    wordMatchHere kw pre (kw ++ u) = some () := by
  unfold wordMatchHere
  have hcond : (kw.isPrefixOf (kw ++ u) && boundary pre.getLast? kw.head?
      && boundary kw.getLast? (((kw ++ u).drop kw.length).head?)) = true := by
    rw [List.drop_left, (isPrefixOf_exists kw (kw ++ u)).2 ⟨u, rfl⟩, hb1, hb2]
    rfl
  rw [if_pos hcond]

theorem reWordSearch_iff (kw t : List Char) :
    reWordSearch kw t = true ↔ OccursWholeWord kw t := by
  unfold reWordSearch
  rw [Option.isSome_iff_exists]
  constructor
  · rintro ⟨a, ha⟩
    obtain ⟨p, s, rfl, hmatch, -⟩ := scanA_eq_some _ t [] a ha
    rw [List.nil_append] at hmatch
    obtain ⟨u, rfl, hb1, hb2⟩ := wordMatchHere_eq_some (by cases a; exact hmatch)
    exact ⟨p, u, by simp [List.append_assoc], hb1, hb2⟩
  · rintro ⟨p, u, rfl, hb1, hb2⟩
    by_contra hnone
    have h0 : scanA (wordMatchHere kw) [] (p ++ kw ++ u) = none := by
      cases hsc : scanA (wordMatchHere kw) [] (p ++ kw ++ u) with
      | none => rfl
      | some a => exact absurd ⟨a, hsc⟩ hnone
    have hm := scanA_eq_none _ (p ++ kw ++ u) [] h0 p (kw ++ u) (by rw [List.append_assoc])
    rw [List.nil_append, wordMatchHere_complete hb1 hb2] at hm
    exact absurd hm (by simp)

/-! ## Claim C3 -/

/-- C3 fails on the vocabulary's size: `_load_skill_keywords` returns 38
terms, not 35. -/
theorem C3_counterexample : skill_keywords.length = 38 ∧ skill_keywords.length ≠ 35 := by
  exact ⟨rfl, by decide⟩

/-- C3 (amended to the vocabulary's actual size, 38): for every input,
the extracted skills form a duplicate-free sublist of the fixed skill
vocabulary containing exactly those vocabulary terms that occur as whole
words (case-insensitively) in the input. -/
theorem C3_skills_characterization (text : List Char) :
    (extract_information text).skills.Nodup ∧
    ∀ kw, kw ∈ (extract_information text).skills ↔
      (kw ∈ skill_keywords ∧ OccursWholeWord kw (text.map Char.toLower)) := by
  have hskills : (extract_information text).skills
      = skill_keywords.filter (fun kw => reWordSearch kw (text.map Char.toLower)) := rfl
  constructor
  · rw [hskills]
    exact (by decide : skill_keywords.Nodup).filter _
  · intro kw
    rw [hskills, List.mem_filter]
    constructor
    · rintro ⟨hm, hs⟩
      exact ⟨hm, (reWordSearch_iff kw _).1 hs⟩
    · rintro ⟨hm, ho⟩
      exact ⟨hm, (reWordSearch_iff kw _).2 ho⟩

/-! ## Claim C10 -/

theorem toLower_eq_backslash {c : Char} (h : c.toLower = '\\') : c = '\\' := by
  have h' : (if c.toNat ≥ 65 ∧ c.toNat ≤ 90 then Char.ofNat (c.toNat + 32) else c) = '\\' := h
  by_cases hc : c.toNat ≥ 65 ∧ c.toNat ≤ 90
  · exfalso
    rw [if_pos hc] at h'
    have hv : (c.toNat + 32).isValidChar := Or.inl (by omega)
    have h92 : (Char.ofNat (c.toNat + 32)).toNat = c.toNat + 32 := by
      unfold Char.ofNat
      rw [dif_pos hv]
      rfl
    rw [h'] at h92
    have h92' : ('\\').toNat = 92 := rfl
    omega
  · rwa [if_neg hc] at h'

theorem mem_text_of_occurs_backslash {kw text : List Char}
    (ho : OccursWholeWord kw (text.map Char.toLower)) (hb : '\\' ∈ kw) : '\\' ∈ text := by
  obtain ⟨p, u, heq, -, -⟩ := ho
  have hm : '\\' ∈ text.map Char.toLower := by
    rw [heq]
    simp [hb]
  obtain ⟨c, hc, hcl⟩ := List.mem_map.1 hm
  rwa [toLower_eq_backslash hcl] at hc

/-- C10: on any input with no backslash character, the education signals
are a duplicate-free selection from the six plain keywords: the escaped
entries `b\.`/`m\.` can only ever match a literal backslash sequence, and
the duplicated `phd` entry is collapsed by the set-deduplication. -/
theorem C10_education_signals (text : List Char) (hnb : '\\' ∉ text) :
    (∀ kw ∈ (extract_information text).education,
        kw ∈ ["bachelor".data, "master".data, "phd".data, "degree".data,
              "university".data, "college".data]) ∧
    (extract_information text).education.Nodup := by
  have hed : (extract_information text).education
      = (education_keywords.filter
          (fun kw => reWordSearch kw (text.map Char.toLower))).dedup := rfl
  constructor
  · intro kw hkw
    rw [hed, List.mem_dedup, List.mem_filter] at hkw
    obtain ⟨hmem, hsearch⟩ := hkw
    have ho := (reWordSearch_iff kw _).1 hsearch
    simp only [education_keywords, List.mem_cons, List.not_mem_nil, or_false] at hmem
    rcases hmem with rfl | rfl | rfl | rfl | rfl | rfl | rfl | rfl | rfl
    all_goals first
      | decide
      | exact absurd (mem_text_of_occurs_backslash ho (by decide)) hnb
  · rw [hed]
    exact List.nodup_dedup _

theorem C10_witness :
    (∀ kw ∈ (extract_information "Masters degree from a university".data).education,
        kw ∈ ["bachelor".data, "master".data, "phd".data, "degree".data,
              "university".data, "college".data]) ∧
    (extract_information "Masters degree from a university".data).education.Nodup :=
  C10_education_signals "Masters degree from a university".data (by decide)

/-! ## Claim C6: experience years -/

/-- The parts of one year-mention: a nonempty digit run, optional
whitespace, and the unit `year`/`yr` (an optional trailing `s` is part of
the following text `r`). -/
def YearMatchParts (d w u : List Char) : Prop :=
  d ≠ [] ∧ (∀ x ∈ d, x.isDigit = true) ∧ (∀ x ∈ w, x.isWhitespace = true) ∧
    (u = "year".data ∨ u = "yr".data)

instance (d w u : List Char) : Decidable (YearMatchParts d w u) := by
  unfold YearMatchParts
  infer_instance

theorem ws_not_digit {c : Char} (h : c.isWhitespace = true) : c.isDigit = false := by
  rcases (by simpa [Char.isWhitespace] using h :
      ((c = ' ' ∨ c = '\t') ∨ c = '\x0d') ∨ c = '\n') with ((rfl | rfl) | rfl) | rfl <;> decide

theorem yearMatchHere_eq_some {pre suf d : List Char}
    (h : yearMatchHere pre suf = some d) :
    ∃ w u r, suf = d ++ w ++ u ++ r ∧ YearMatchParts d w u := by
  unfold yearMatchHere at h
  by_cases h1 : suf.takeWhile Char.isDigit = []
  · rw [if_pos h1] at h
    exact absurd h (by simp)
  · rw [if_neg h1] at h
    by_cases h2 : ("year".data.isPrefixOf
          ((suf.dropWhile Char.isDigit).dropWhile Char.isWhitespace)
        || "yr".data.isPrefixOf
          ((suf.dropWhile Char.isDigit).dropWhile Char.isWhitespace)) = true
    · rw [if_pos h2] at h
      have hd : d = suf.takeWhile Char.isDigit := by
        have h' := h
        simp at h'
        exact h'.symm
      subst hd
      have hsuf : suf = suf.takeWhile Char.isDigit
          ++ ((suf.dropWhile Char.isDigit).takeWhile Char.isWhitespace
              ++ (suf.dropWhile Char.isDigit).dropWhile Char.isWhitespace) := by
        rw [List.takeWhile_append_dropWhile, List.takeWhile_append_dropWhile]
      rw [Bool.or_eq_true] at h2
      rcases h2 with hy | hy
      · obtain ⟨r, hr⟩ := (isPrefixOf_exists _ _).1 hy
        refine ⟨(suf.dropWhile Char.isDigit).takeWhile Char.isWhitespace,
          "year".data, r, ?_, h1, mem_takeWhile_pred _, mem_takeWhile_pred _, Or.inl rfl⟩
        calc suf = suf.takeWhile Char.isDigit
              ++ ((suf.dropWhile Char.isDigit).takeWhile Char.isWhitespace
                  ++ (suf.dropWhile Char.isDigit).dropWhile Char.isWhitespace) := hsuf
          _ = suf.takeWhile Char.isDigit
              ++ ((suf.dropWhile Char.isDigit).takeWhile Char.isWhitespace
                  ++ ("year".data ++ r)) := by rw [hr]
          _ = suf.takeWhile Char.isDigit
              ++ (suf.dropWhile Char.isDigit).takeWhile Char.isWhitespace
              ++ "year".data ++ r := by simp [List.append_assoc]
      · obtain ⟨r, hr⟩ := (isPrefixOf_exists _ _).1 hy
        refine ⟨(suf.dropWhile Char.isDigit).takeWhile Char.isWhitespace,
          "yr".data, r, ?_, h1, mem_takeWhile_pred _, mem_takeWhile_pred _, Or.inr rfl⟩
        calc suf = suf.takeWhile Char.isDigit
              ++ ((suf.dropWhile Char.isDigit).takeWhile Char.isWhitespace
                  ++ (suf.dropWhile Char.isDigit).dropWhile Char.isWhitespace) := hsuf
          _ = suf.takeWhile Char.isDigit
              ++ ((suf.dropWhile Char.isDigit).takeWhile Char.isWhitespace
                  ++ ("yr".data ++ r)) := by rw [hr]
          _ = suf.takeWhile Char.isDigit
              ++ (suf.dropWhile Char.isDigit).takeWhile Char.isWhitespace
              ++ "yr".data ++ r := by simp [List.append_assoc]
    · rw [if_neg h2] at h
      exact absurd h (by simp)

theorem yearMatchHere_complete {pre d w u r : List Char}
    (hp : YearMatchParts d w u) :
    yearMatchHere pre (d ++ w ++ u ++ r) = some d := by
  obtain ⟨hd, hdig, hws, hu⟩ := hp
  have hy : ∃ urest, u ++ r = 'y' :: urest := by
    rcases hu with rfl | rfl
    · exact ⟨"ear".data ++ r, rfl⟩
    · exact ⟨"r".data ++ r, rfl⟩
  obtain ⟨urest, hyu⟩ := hy
  have hstep : ∃ y rest, w ++ (u ++ r) = y :: rest ∧ y.isDigit = false := by
    cases w with
    | nil =>
      refine ⟨'y', urest, by simpa using hyu, by decide⟩
    | cons y w' =>
      exact ⟨y, w' ++ (u ++ r), by simp, ws_not_digit (hws y (by simp))⟩
  obtain ⟨y, rest, hys, hnd⟩ := hstep
  have hsuf : d ++ w ++ u ++ r = d ++ (y :: rest) := by
    rw [List.append_assoc, List.append_assoc, hys]
  have htake : (d ++ w ++ u ++ r).takeWhile Char.isDigit = d := by
    rw [hsuf]
    exact takeWhile_stop d y rest hdig hnd
  have hdrop : (d ++ w ++ u ++ r).dropWhile Char.isDigit = w ++ (u ++ r) := by
    rw [hsuf, dropWhile_stop d y rest hdig hnd, hys]
  have hdropws : ((d ++ w ++ u ++ r).dropWhile Char.isDigit).dropWhile Char.isWhitespace
      = u ++ r := by
    rw [hdrop, dropWhile_append_all w (u ++ r) hws, hyu,
      List.dropWhile_cons_of_neg (by decide)]
  unfold yearMatchHere
  rw [htake, hdropws]
  rw [if_neg (by simpa using hd)]
  rcases hu with rfl | rfl
  · rw [if_pos (by simp [(isPrefixOf_exists "year".data ("year".data ++ r)).2 ⟨r, rfl⟩])]
  · have h2 : ("yr".data.isPrefixOf ("yr".data ++ r)) = true :=
      (isPrefixOf_exists "yr".data ("yr".data ++ r)).2 ⟨r, rfl⟩
    rw [if_pos (by simp [h2])]

/-- C6 fails as stated on the sentinel's case: the code's sentinel is
`"Not specified"`, not `"not specified"`; and the code accepts (multiple)
whitespace between the integer and the unit, so `"7  years"` yields `"7"`
although no integer is immediately followed by the unit. -/
theorem C6_counterexample :
    (extract_information []).experience_years = "Not specified".data ∧
    "Not specified".data ≠ "not specified".data ∧
    (extract_information "7  years".data).experience_years = "7".data := by
  exact ⟨rfl, by decide, rfl⟩

/-- C6 (amended): `experience_years` is the first (leftmost) digit run of
the lower-cased text that is followed, possibly after whitespace, by
`year`/`yr`; when no such mention exists it is the sentinel
`"Not specified"`. -/
theorem C6_experience_years (text : List Char) :
    ((¬ ∃ p d w u r, text.map Char.toLower = p ++ d ++ w ++ u ++ r ∧ YearMatchParts d w u) →
      (extract_information text).experience_years = "Not specified".data) ∧
    ((∃ p d w u r, text.map Char.toLower = p ++ d ++ w ++ u ++ r ∧ YearMatchParts d w u) →
      ∃ p w u r, text.map Char.toLower
          = p ++ (extract_information text).experience_years ++ w ++ u ++ r ∧
        YearMatchParts (extract_information text).experience_years w u ∧
        ∀ p' d' w' u' r', text.map Char.toLower = p' ++ d' ++ w' ++ u' ++ r' →
          YearMatchParts d' w' u' → p.length ≤ p'.length) := by
  have hexp : (extract_information text).experience_years
      = (scanA yearMatchHere [] (text.map Char.toLower)).getD "Not specified".data := rfl
  constructor
  · intro hno
    cases hsc : scanA yearMatchHere [] (text.map Char.toLower) with
    | none => rw [hexp, hsc]; rfl
    | some d =>
      exfalso
      obtain ⟨p, s, hps, hmatch, -⟩ := scanA_eq_some _ _ [] d hsc
      rw [List.nil_append] at hmatch
      obtain ⟨w, u, r, rfl, hparts⟩ := yearMatchHere_eq_some hmatch
      exact hno ⟨p, d, w, u, r, by rw [hps]; simp [List.append_assoc], hparts⟩
  · rintro ⟨p, d, w, u, r, heq, hparts⟩
    cases hsc : scanA yearMatchHere [] (text.map Char.toLower) with
    | none =>
      exfalso
      have hm := scanA_eq_none _ _ [] hsc p (d ++ w ++ u ++ r)
        (by rw [heq]; simp [List.append_assoc])
      rw [List.nil_append, yearMatchHere_complete hparts] at hm
      exact absurd hm (by simp)
    | some d0 =>
      obtain ⟨pm, s, hps, hmatch, hmin⟩ := scanA_eq_some _ _ [] d0 hsc
      rw [List.nil_append] at hmatch
      obtain ⟨w0, u0, r0, rfl, hparts0⟩ := yearMatchHere_eq_some hmatch
      rw [hexp, hsc]
      refine ⟨pm, w0, u0, r0, by rw [hps]; simp [List.append_assoc], hparts0, ?_⟩
      intro p' d' w' u' r' heq' hparts'
      by_contra hlt
      push_neg at hlt
      have hm := hmin p' (d' ++ w' ++ u' ++ r')
        (by rw [heq']; simp [List.append_assoc]) hlt
      rw [List.nil_append, yearMatchHere_complete hparts'] at hm
      exact absurd hm (by simp)

theorem C6_witness :
    ∃ p w u r,
      "5 years".data.map Char.toLower
        = p ++ (extract_information "5 years".data).experience_years ++ w ++ u ++ r ∧
      YearMatchParts (extract_information "5 years".data).experience_years w u ∧
      ∀ p' d' w' u' r', "5 years".data.map Char.toLower = p' ++ d' ++ w' ++ u' ++ r' →
        YearMatchParts d' w' u' → p.length ≤ p'.length :=
  (C6_experience_years "5 years".data).2
    ⟨[], "5".data, " ".data, "year".data, "s".data, by decide, by decide⟩

/-! ## Claim C5: email extraction -/

/-- A string of the shape matched by the email pattern's core:
`A+ @ B+ \. C{2,}`. -/
def EmailShape (s : List Char) : Prop :=
  ∃ a b c, s = a ++ '@' :: (b ++ '.' :: c) ∧ a ≠ [] ∧ (∀ x ∈ a, charA x = true) ∧
    b ≠ [] ∧ (∀ x ∈ b, charB x = true) ∧ 2 ≤ c.length ∧ (∀ x ∈ c, charC x = true)

/-- An email-shaped substring delimited by word boundaries, as the full
pattern `\b ... \b` requires. -/
def EmailOccurrence (p s q : List Char) : Prop :=
  EmailShape s ∧ boundary p.getLast? s.head? = true ∧ boundary s.getLast? q.head? = true

theorem getLast?_append_right {l₁ l₂ : List Char} (h : l₂ ≠ []) :
    (l₁ ++ l₂).getLast? = l₂.getLast? :=
  List.getLast?_append_of_ne_nil _ h

theorem head?_append_left {l₁ l₂ : List Char} (h : l₁ ≠ []) :
    (l₁ ++ l₂).head? = l₁.head? := by
  cases l₁ with
  | nil => exact absurd rfl h
  | cons c t => rfl

theorem mem_take_of_le_takeWhile {p : Char → Bool} {l : List Char} {m : Nat}
    (hm : m ≤ (l.takeWhile p).length) : ∀ x ∈ l.take m, p x = true := by
  intro x hx
  have hsplit : l.take m = (l.takeWhile p).take m := by
    conv_lhs => rw [← List.takeWhile_append_dropWhile (p := p) (l := l)]
    rw [List.take_append_eq_append_take, show m - (l.takeWhile p).length = 0 by omega]
    simp
  rw [hsplit] at hx
  exact mem_takeWhile_pred _ x (List.take_subset _ _ hx)

theorem emailTail_eq_some {l2 : List Char} {m : Nat} (h : emailTail l2 = some m) :
    2 ≤ m ∧ m ≤ (l2.takeWhile charC).length ∧
      boundary ((l2.take m).getLast?) ((l2.drop m).head?) = true := by
  unfold emailTail at h
  obtain ⟨k, hk, hf⟩ := List.exists_of_findSome?_eq_some h
  by_cases hbd : boundary ((l2.take k).getLast?) ((l2.drop k).head?) = true
  · rw [if_pos hbd] at hf
    have hkm : k = m := by simpa using hf
    subst hkm
    have hr := (mem_descRange _ _ _).1 hk
    exact ⟨hr.1, hr.2, hbd⟩
  · rw [if_neg hbd] at hf
    exact absurd hf (by simp)

theorem emailTail_complete {c q : List Char} (hc : 2 ≤ c.length)
    (hcC : ∀ x ∈ c, charC x = true)
    (hbd : boundary c.getLast? q.head? = true) :
    emailTail (c ++ q) ≠ none := by
  unfold emailTail
  intro hnone
  rw [List.findSome?_eq_none_iff] at hnone
  have hmem : c.length ∈ descRange 2 ((c ++ q).takeWhile charC).length := by
    rw [mem_descRange]
    refine ⟨hc, ?_⟩
    rw [takeWhile_append_all c q hcC]
    simp
  have hval := hnone c.length hmem
  rw [List.take_left, List.drop_left, if_pos hbd] at hval
  exact absurd hval (by simp)

theorem eq_cons_head_tail {l : List Char} {x : Char} (h : l.head? = some x) :
    l = x :: l.tail := by
  cases l with
  | nil => simp at h
  | cons c t =>
    have hc : c = x := by simpa using h
    rw [hc]
    rfl

theorem takeWhile_length_le (p : Char → Bool) (l : List Char) :
    (l.takeWhile p).length ≤ l.length := by
  conv_rhs => rw [← List.takeWhile_append_dropWhile (p := p) (l := l)]
  rw [List.length_append]
  omega

theorem emailMatchHere_eq_some {pre suf s : List Char}
    (h : emailMatchHere pre suf = some s) :
    ∃ rest, suf = s ++ rest ∧ EmailShape s ∧
      boundary pre.getLast? s.head? = true ∧ boundary s.getLast? rest.head? = true := by
  unfold emailMatchHere at h
  by_cases hb : boundary pre.getLast? suf.head? = true
  · rw [if_pos hb] at h
    by_cases ha : suf.takeWhile charA = []
    · rw [if_pos ha] at h
      exact absurd h (by simp)
    · rw [if_neg ha] at h
      by_cases hat : (suf.dropWhile charA).head? = some '@'
      · rw [if_pos hat] at h
        have hD : suf.dropWhile charA = '@' :: (suf.dropWhile charA).tail :=
          eq_cons_head_tail hat
        obtain ⟨⟨b1, b2⟩, hmem, hf⟩ := List.exists_of_findSome?_eq_some h
        dsimp only at hf
        obtain ⟨hbr, hb1ne⟩ := (mem_dotSplits _ _ _).1 hmem
        obtain ⟨m, htail, hs⟩ := Option.map_eq_some'.1 hf
        obtain ⟨hm2, hmlen, hbd⟩ := emailTail_eq_some htail
        have hlenl2 : ((b2 ++ (suf.dropWhile charA).tail.dropWhile charB).takeWhile
              charC).length ≤ (b2 ++ (suf.dropWhile charA).tail.dropWhile charB).length :=
          takeWhile_length_le _ _
        have hcplen : ((b2 ++ (suf.dropWhile charA).tail.dropWhile charB).take m).length
            = m := by
          rw [List.length_take, List.length_append]
          rw [List.length_append] at hlenl2
          omega
        have hcpne : (b2 ++ (suf.dropWhile charA).tail.dropWhile charB).take m ≠ [] := by
          intro hcontra
          rw [hcontra] at hcplen
          simp at hcplen
          omega
        have hsufA : suf = suf.takeWhile charA ++ '@' :: (suf.dropWhile charA).tail := by
          conv_lhs => rw [← List.takeWhile_append_dropWhile (p := charA) (l := suf)]
          rw [hD]
          rfl
        have hr2 : (suf.dropWhile charA).tail
            = b1 ++ '.' :: (b2 ++ (suf.dropWhile charA).tail.dropWhile charB) := by
          conv_lhs =>
            rw [← List.takeWhile_append_dropWhile (p := charB)
              (l := (suf.dropWhile charA).tail)]
          rw [hbr]
          simp
        refine ⟨(b2 ++ (suf.dropWhile charA).tail.dropWhile charB).drop m, ?_, ?_, ?_, ?_⟩
        · rw [← hs]
          conv_lhs => rw [hsufA, hr2]
          simp [List.append_assoc]
        · refine ⟨suf.takeWhile charA, b1,
            (b2 ++ (suf.dropWhile charA).tail.dropWhile charB).take m,
            by rw [← hs]; simp [List.append_assoc], ha, mem_takeWhile_pred _, hb1ne, ?_,
            by omega, ?_⟩
          · intro y hy
            have hyb : y ∈ ((suf.dropWhile charA).tail).takeWhile charB := by
              rw [hbr]
              exact List.mem_append_left _ hy
            exact mem_takeWhile_pred _ y hyb
          · exact mem_take_of_le_takeWhile hmlen
        · rw [← hs]
          rw [head?_append_left (by simp), head?_append_left ha]
          have hhh : suf.head? = (suf.takeWhile charA).head? := by
            conv_lhs => rw [hsufA]
            rw [head?_append_left ha]
          rw [← hhh]
          exact hb
        · rw [← hs]
          rw [getLast?_append_right (by simp)]
          rw [show ('.' :: (b2 ++ (suf.dropWhile charA).tail.dropWhile charB).take m)
              = ['.'] ++ (b2 ++ (suf.dropWhile charA).tail.dropWhile charB).take m from rfl]
          rw [getLast?_append_right hcpne]
          exact hbd
      · rw [if_neg hat] at h
        exact absurd h (by simp)
  · rw [if_neg hb] at h
    exact absurd h (by simp)

theorem emailMatchHere_complete {pre s q : List Char} (hocc : EmailOccurrence pre s q) :
    emailMatchHere pre (s ++ q) ≠ none := by
  obtain ⟨⟨a, b, c, rfl, hane, haA, hbne, hbB, hclen, hcC⟩, hb1, hb2⟩ := hocc
  have hcne : c ≠ [] := by
    intro hc
    rw [hc] at hclen
    simp at hclen
  have hsq : (a ++ '@' :: (b ++ '.' :: c)) ++ q
      = a ++ '@' :: (b ++ '.' :: (c ++ q)) := by
    simp [List.append_assoc]
  have hheadA : (a ++ '@' :: (b ++ '.' :: c)).head? = a.head? := head?_append_left hane
  have hA : ((a ++ '@' :: (b ++ '.' :: c)) ++ q).takeWhile charA = a := by
    rw [hsq]
    exact takeWhile_stop a '@' (b ++ '.' :: (c ++ q)) haA (by decide)
  have hD : ((a ++ '@' :: (b ++ '.' :: c)) ++ q).dropWhile charA
      = '@' :: (b ++ '.' :: (c ++ q)) := by
    rw [hsq]
    exact dropWhile_stop a '@' (b ++ '.' :: (c ++ q)) haA (by decide)
  have hBtake : (b ++ '.' :: (c ++ q)).takeWhile charB
      = b ++ '.' :: (c ++ q).takeWhile charB := by
    rw [takeWhile_append_all b ('.' :: (c ++ q)) hbB,
      List.takeWhile_cons_of_pos (by decide)]
  have hBdrop : (b ++ '.' :: (c ++ q)).dropWhile charB = (c ++ q).dropWhile charB := by
    rw [dropWhile_append_all b ('.' :: (c ++ q)) hbB,
      List.dropWhile_cons_of_pos (by decide)]
  have hglue : (c ++ q).takeWhile charB ++ (c ++ q).dropWhile charB = c ++ q :=
    List.takeWhile_append_dropWhile _ _
  have hslast : (a ++ '@' :: (b ++ '.' :: c)).getLast? = c.getLast? := by
    rw [getLast?_append_right (by simp),
      show ('@' :: (b ++ '.' :: c)) = ['@'] ++ (b ++ '.' :: c) from rfl,
      getLast?_append_right (by simp), getLast?_append_right (by simp),
      show ('.' :: c) = ['.'] ++ c from rfl, getLast?_append_right hcne]
  have htail : emailTail ((c ++ q).takeWhile charB ++ (c ++ q).dropWhile charB) ≠ none := by
    rw [hglue]
    refine emailTail_complete hclen hcC ?_
    rw [← hslast]
    exact hb2
  obtain ⟨m0, hm0⟩ := Option.ne_none_iff_exists'.1 htail
  have hhead : ((a ++ '@' :: (b ++ '.' :: c)) ++ q).head? = a.head? := by
    rw [hsq, head?_append_left hane]
  have hb1' : boundary pre.getLast? a.head? = true := by
    rw [← hheadA]
    exact hb1
  intro hnone
  unfold emailMatchHere at hnone
  rw [if_pos (by rw [hhead]; exact hb1')] at hnone
  rw [hA, if_neg hane, hD] at hnone
  simp only [List.head?_cons, List.tail_cons, if_true] at hnone
  rw [hBtake, hBdrop] at hnone
  rw [List.findSome?_eq_none_iff] at hnone
  have hcand := hnone ((b, (c ++ q).takeWhile charB))
    ((mem_dotSplits _ _ _).2 ⟨rfl, hbne⟩)
  dsimp only at hcand
  rw [hm0] at hcand
  exact absurd hcand (by simp)

/-- C5 fails as stated on the sentinel's case: the code's sentinel is
`"Not found"`, not `"not found"`. -/
theorem C5_counterexample :
    (extract_information []).email = "Not found".data ∧
    "Not found".data ≠ "not found".data :=
  ⟨rfl, by decide⟩

/-- C5 (amended to the code's sentinel capitalization): when no substring
of the input matches the email pattern (at word boundaries), the email
field is the sentinel `"Not found"`; when a match exists, the email field
is an email-shaped substring occurring at the leftmost position at which
any match starts. -/
theorem C5_email_extraction (text : List Char) :
    ((¬ ∃ p s q, text = p ++ s ++ q ∧ EmailOccurrence p s q) →
      (extract_information text).email = "Not found".data) ∧
    ((∃ p s q, text = p ++ s ++ q ∧ EmailOccurrence p s q) →
      ∃ p s q, text = p ++ s ++ q ∧ EmailOccurrence p s q ∧
        (extract_information text).email = s ∧
        ∀ p' s' q', text = p' ++ s' ++ q' → EmailOccurrence p' s' q' →
          p.length ≤ p'.length) := by
  have hem : (extract_information text).email
      = (scanA emailMatchHere [] text).getD "Not found".data := rfl
  constructor
  · intro hno
    cases hsc : scanA emailMatchHere [] text with
    | none => rw [hem, hsc]; rfl
    | some s =>
      exfalso
      obtain ⟨p, sfx, hps, hmatch, -⟩ := scanA_eq_some _ _ [] s hsc
      rw [List.nil_append] at hmatch
      obtain ⟨rest, rfl, hshape, hbd1, hbd2⟩ := emailMatchHere_eq_some hmatch
      exact hno ⟨p, s, rest, by rw [hps, List.append_assoc], hshape, hbd1, hbd2⟩
  · rintro ⟨p, s, q, heq, hocc⟩
    cases hsc : scanA emailMatchHere [] text with
    | none =>
      exfalso
      have hm := scanA_eq_none _ _ [] hsc p (s ++ q) (by rw [heq, List.append_assoc])
      rw [List.nil_append] at hm
      exact emailMatchHere_complete hocc hm
    | some s0 =>
      obtain ⟨pm, sfx, hps, hmatch, hmin⟩ := scanA_eq_some _ _ [] s0 hsc
      rw [List.nil_append] at hmatch
      obtain ⟨rest, rfl, hshape, hbd1, hbd2⟩ := emailMatchHere_eq_some hmatch
      rw [hem, hsc]
      refine ⟨pm, s0, rest, by rw [hps, List.append_assoc], ⟨hshape, hbd1, hbd2⟩, rfl, ?_⟩
      intro p' s' q' heq' hocc'
      by_contra hlt
      push_neg at hlt
      have hm := hmin p' (s' ++ q') (by rw [heq', List.append_assoc]) hlt
      rw [List.nil_append] at hm
      exact emailMatchHere_complete hocc' hm

theorem C5_witness :
    ∃ p s q, "to a@b.de now".data = p ++ s ++ q ∧ EmailOccurrence p s q ∧
      (extract_information "to a@b.de now".data).email = s ∧
      ∀ p' s' q', "to a@b.de now".data = p' ++ s' ++ q' → EmailOccurrence p' s' q' →
        p.length ≤ p'.length :=
  (C5_email_extraction "to a@b.de now".data).2
    ⟨"to ".data, "a@b.de".data, " now".data, by decide,
      ⟨"a".data, "b".data, "de".data, by decide, by decide, by decide, by decide,
        by decide, by decide, by decide⟩, by decide, by decide⟩

end ResumeAnalyzer
